import Mathlib

/-!
Shallow embedding of the `ipycolorbar` / chromabar sources:

* `src/unnamed/part_000` — scale utilities (`generateSvgID`,
  `ensureCheckerPattern`, `checkType`, `scaleIsOrdinal`, `makeAxisScale`);
* `src/packages/chromabar/src/editor/handle.ts` — `colorHandle`;
* `src/unnamed/part_001` — tests of the colorbar renderer (the renderer
  itself is not under `src/`; its swatch layout is modelled from the spec
  and the expected outputs recorded in this test file).

Scales are modelled over `ℚ`.  The external d3 collaborators
(`scaleLinear` continuous evaluation and `scaleBand` construction) are
modelled after their documented behaviour, since the repository treats
them purely as external primitives supplying `scale` objects.
-/

namespace Ipycolorbar

/-! ### Model of the external d3 continuous (linear) scale

d3 `continuous` scales evaluate by piecewise-linear interpolation between
the entries of `domain` and `range`: two-point domains use `bimap`,
longer domains use `polymap` (which reverses descending domains and then
locates the target segment with a right-bisection over the domain). -/

/-- d3 `interpolateNumber a b`: `t ↦ a * (1 - t) + b * t`. -/
def interpN (a b t : ℚ) : ℚ := a * (1 - t) + b * t

/-- d3 `normalize a b`: deinterpolation, with the d3 fallback to the
constant `1/2` when the two anchors coincide. -/
def normalizeQ (a b x : ℚ) : ℚ := if b - a = 0 then 1 / 2 else (x - a) / (b - a)

/-- One linear segment: deinterpolate over `[a, b]`, reinterpolate over
`[u, v]`. -/
def segApply (a b u v x : ℚ) : ℚ := interpN u v (normalizeQ a b x)

/-- d3 `bimap`: two-point scale evaluation, swapping the anchors for a
descending domain. -/
def bimap (d r : List ℚ) (x : ℚ) : ℚ :=
  let d0 := d.getD 0 0
  let d1 := d.getD 1 0
  let r0 := r.getD 0 0
  let r1 := r.getD 1 0
  if d1 < d0 then segApply d1 d0 r1 r0 x else segApply d0 d1 r0 r1 x

/-- d3 `bisectRight l x lo hi` on an ascending list: `lo` plus the number
of entries of `l` with index in `[lo, hi)` that are `≤ x`. -/
def bisectR (l : List ℚ) (x : ℚ) (lo hi : ℕ) : ℕ :=
  lo + ((l.drop lo).take (hi - lo)).countP (fun v => decide (v ≤ x))

/-- d3 `polymap` on an already ascending domain: bisect for the segment
index and apply that segment. -/
def polymapAsc (d r : List ℚ) (x : ℚ) : ℚ :=
  let j := min d.length r.length - 1
  let i := bisectR d x 1 j - 1
  segApply (d.getD i 0) (d.getD (i + 1) 0) (r.getD i 0) (r.getD (i + 1) 0) x

/-- d3 `polymap`: reverse descending domains (and their ranges), then
evaluate the ascending piecewise-linear map. -/
def polymap (d r : List ℚ) (x : ℚ) : ℚ :=
  let j := min d.length r.length - 1
  if d.getD j 0 < d.getD 0 0 then polymapAsc d.reverse r.reverse x
  else polymapAsc d r x

/-- d3 continuous scale evaluation: `polymap` for more than two usable
entries, `bimap` otherwise. -/
def linearApply (d r : List ℚ) (x : ℚ) : ℚ :=
  if 2 < min d.length r.length then polymap d r x else bimap d r x

/-! ### The scale data model probed by `checkType` / `makeAxisScale` -/

/-- A JavaScript value as far as the probes in `checkType` can observe it:
a number, a `Date`, or anything else. -/
inductive Val : Type where
  | num (q : ℚ)
  | date (ms : ℚ)
  | other
deriving DecidableEq

/-- The `instanceof Date` probe. -/
def Val.isDate : Val → Bool
  | .date _ => true
  | _ => false

/-- A scale object as observed by `part_000`: its current `domain`, its
`range` when the method is present (`none` models `scale.range ===
undefined`), whether an `invert` method is present, and the behaviour of
its application and inversion as functions of the current domain and
range.  `copy()` duplicates this state. -/
structure Scale : Type where
  domain : List ℚ
  range : Option (List ℚ)
  hasInvert : Bool
  applyFn : List ℚ → List ℚ → ℚ → Val
  invertFn : List ℚ → List ℚ → ℚ → Val

/-- Behaviour of a d3 linear scale object: apply is piecewise-linear
interpolation of the current domain onto the current range. -/
def linApplyV (d r : List ℚ) (x : ℚ) : Val := .num (linearApply d r x)

/-- Behaviour of d3 linear `invert`: interpolation with domain and range
swapped. -/
def linInvertV (d r : List ℚ) (x : ℚ) : Val := .num (linearApply r d x)

/-- d3 `scaleLinear()`: identity scale on `[0, 1]`. -/
def scaleLinear : Scale :=
  { domain := [0, 1]
    range := some [0, 1]
    hasInvert := true
    applyFn := linApplyV
    invertFn := linInvertV }

/-- The copy of the probed scale after `s.domain([1, 2]).range([1, 2])`
inside `checkType` (the mutations hit the copy, never the argument). -/
def probedCopy (sc : Scale) : Scale :=
  { sc with domain := [1, 2], range := some [1, 2] }

/-- `checkType` from `part_000`, threading the state of the scale object
that was passed in: the classification together with the state of that
object when the call returns.  The probes run on `probedCopy sc`
(`const s = scale.copy()`), so the second component is `sc` itself. -/
def checkTypeS (sc : Scale) : String × Scale :=
  match sc.range with
  | none => ("sequential", sc)
  | some _ =>
    let s := probedCopy sc
    if s.applyFn s.domain (s.range.getD []) (3 / 2) = .num 1 then
      ("ordinal", sc)
    else if s.invertFn s.domain (s.range.getD []) (3 / 2) = .num (3 / 2) then
      ("linear", sc)
    else if (s.invertFn s.domain (s.range.getD []) (3 / 2)).isDate then
      ("time", sc)
    else
      ("not supported", sc)

/-- The classification returned by `checkType`. -/
def checkType (sc : Scale) : String := (checkTypeS sc).1

/-- `scaleIsOrdinal` from `part_000`. -/
def scaleIsOrdinal (sc : Scale) : Bool := checkType sc == "ordinal"

/-- Result of `makeAxisScale`: either the band scale
`scaleBand().domain(scale.domain()).range(extent)` of the ordinal branch,
or a continuous axis scale object. -/
inductive AxisScaleResult : Type where
  | band (domain : List ℚ) (range : List ℚ)
  | cont (scale : Scale)

/-- Numeric evaluation of a scale object at `x` (non-numeric results are
collapsed to `0`; the claims only evaluate scales whose behaviour is
numeric). -/
def evalNum (s : Scale) (x : ℚ) : ℚ :=
  match s.applyFn s.domain (s.range.getD []) x with
  | .num q => q
  | _ => 0

/-- `makeAxisScale` from `part_000`.  Ordinal scales get a band scale on
the same domain and the pixel extent.  Otherwise `ctor` is either
`scale.copy` (when both `range` and `invert` methods exist) or a fresh
`scaleLinear().domain(domain)`; a two-point `transformer` maps the first
and last domain values onto the extent, and the returned scale keeps the
domain of `ctor()` while its range becomes the transformer image of every
domain value. -/
def makeAxisScale (sc : Scale) (extent : List ℚ) : AxisScaleResult :=
  let domain := sc.domain
  if scaleIsOrdinal sc then .band sc.domain extent
  else
    let ctor : Unit → Scale :=
      if sc.range.isSome && sc.hasInvert then fun _ => sc
      else fun _ => { scaleLinear with domain := domain }
    let transformer : Scale :=
      { ctor () with
          domain := [domain.getD 0 0, domain.getD (domain.length - 1) 0]
          range := some extent }
    .cont { ctor () with range := some (domain.map (fun v => evalNum transformer v)) }

/-! ### SVG id generation (`generateSvgID`) and the checker pattern -/

/-- Decimal digit character: `d ↦ '0' + d`. -/
def digitChar (d : ℕ) : Char := Char.ofNat (48 + d)

/-- Fuelled decimal rendering of a natural number (most significant digit
first); the fuel dominates the digit count. -/
def natReprCore : ℕ → ℕ → List Char
  | 0, _ => []
  | fuel + 1, n =>
    if n = 0 then [] else natReprCore fuel (n / 10) ++ [digitChar (n % 10)]

/-- The decimal rendering used by the template literal of
`generateSvgID`. -/
def natRepr (n : ℕ) : String :=
  if n = 0 then "0" else ⟨natReprCore (n + 1) n⟩

/-- The module-level `svgIDs` object: a per-prefix counter. -/
def IDState : Type := String → ℕ

/-- The counter state at module load: no id has been handed out. -/
def initialSvgIDs : IDState := fun _ => 0

/-- `generateSvgID` from `part_000`: bump the counter of the given prefix
and render the id string. -/
def generateSvgID (p : String) (st : IDState) : String × IDState :=
  let n := st p + 1
  (p ++ "-" ++ natRepr n, fun q => if q = p then n else st q)

/-- `ensureCheckerPattern` from `part_000`, on the list of ids of the
`pattern.checkerPattern` elements of the target SVG.  The
`data([null])` join keeps the first existing pattern (the exit selection
removes any others) and only an empty selection enters a fresh pattern,
whose id comes from `generateSvgID`; the returned string is the id
attribute of the merged selection. -/
def ensureCheckerPattern (patterns : List String) (st : IDState) :
    String × List String × IDState :=
  match patterns with
  | [] =>
    let r := generateSvgID "checkerPattern" st
    (r.1, [r.1], r.2)
  | p :: _ => (p, [p], st)

/-! ### The colorHandle renderer (`handle.ts`) -/

/-- The mutable accessor state of a `colorHandle`. -/
structure ColorHandle (Datum : Type) : Type where
  width : ℚ
  height : ℚ
  borderThickness : ℚ
  color : Datum → String

/-- Defaults from `colorHandle()` when `Datum` is `String` (the default
`color` accessor is the identity `constant`). -/
def colorHandleDefault : ColorHandle String :=
  { width := 10, height := 15, borderThickness := 1, color := fun d => d }

/-- `colorHandle.color(_)` setter. -/
def ColorHandle.setColor {D : Type} (h : ColorHandle D) (c : D → String) :
    ColorHandle D := { h with color := c }

/-- `colorHandle.width(_)` setter. -/
def ColorHandle.setWidth {D : Type} (h : ColorHandle D) (w : ℚ) :
    ColorHandle D := { h with width := w }

/-- `colorHandle.height(_)` setter. -/
def ColorHandle.setHeight {D : Type} (h : ColorHandle D) (v : ℚ) :
    ColorHandle D := { h with height := v }

/-- `colorHandle.borderThickness(_)` setter. -/
def ColorHandle.setBorderThickness {D : Type} (h : ColorHandle D) (b : ℚ) :
    ColorHandle D := { h with borderThickness := b }

/-- The attributes emitted when a color handle renders one bound datum:
the `points` lists are the parsed coordinate pairs of the emitted
`points` attributes, the transforms the `translate(x, y)` pairs. -/
structure HandleRender : Type where
  borderPoints : List (ℚ × ℚ)
  borderStrokeWidth : ℚ
  trianglePoints : List (ℚ × ℚ)
  bboxPoints : List (ℚ × ℚ)
  bboxTransform : ℚ × ℚ
  boxPoints : List (ℚ × ℚ)
  boxTransform : ℚ × ℚ
  boxFill : String

/-- The render function of `colorHandle` (the body of the returned
closure in `handle.ts`), applied to one bound datum. -/
def colorHandleRender {D : Type} (h : ColorHandle D) (d : D) : HandleRender :=
  let hh := h.height
  let w := h.width
  let c := w / 2
  let boxPoints : List (ℚ × ℚ) := [(0, 0), (w, 0), (w, hh), (0, hh)]
  { borderPoints := [(0, 0), (c, c), (c, c + hh), (-c, c + hh), (-c, c)]
    borderStrokeWidth := 2 * h.borderThickness
    trianglePoints := [(0, 0), (c, c), (-c, c)]
    bboxPoints := boxPoints
    bboxTransform := (-c, c)
    boxPoints := boxPoints
    boxTransform := (-c, c)
    boxFill := h.color d }

/-! ### Colorbar swatch layout (modelled: the renderer is not in src/) -/

/-- Bar orientation, as in `part_000`. -/
inductive Orientation : Type where
  | horizontal
  | vertical
deriving DecidableEq

/-- One gradient swatch rect: the `x`, `y`, `width` and `height`
attributes. -/
structure GradRect : Type where
  x : ℕ
  y : ℕ
  width : ℕ
  height : ℕ
deriving DecidableEq

instance : Inhabited GradRect := ⟨⟨0, 0, 0, 0⟩⟩

/-- Modelled from the spec: the chromabar colorbar renderer (its source
file is not under `src/`; only its tests are).  For a continuous color
scale it emits one `rect.gradient` per pixel of the bar length; in
horizontal orientation the rects sit at `y = 0` with the full breadth as
height and advance along `x`, in vertical orientation at `x = 0` with
the full breadth as width and advance along `y` (from the bottom of the
bar upwards); each rect is two pixels thick, clipped to the bar interior
(`barLength + 1` pixels), exactly as in the expected outputs of the
tests in `src/unnamed/part_001`. -/
def gradientRects (orient : Orientation) (barLength breadth : ℕ) :
    List GradRect :=
  (List.range (barLength + 1)).map (fun i =>
    match orient with
    | .horizontal => ⟨i, 0, min 2 (barLength + 1 - i), breadth⟩
    | .vertical => ⟨0, barLength - i, breadth, min 2 (i + 1)⟩)

/-! ## Properties of the decimal rendering -/

theorem digitChar_inj {a b : ℕ} (ha : a < 10) (hb : b < 10)
    (h : digitChar a = digitChar b) : a = b := by
  interval_cases a <;> interval_cases b <;> first | rfl | exact absurd h (by decide)

theorem natReprCore_zero (f : ℕ) : natReprCore f 0 = [] := by
  cases f <;> simp [natReprCore]

theorem natReprCore_congr : ∀ (f g n : ℕ), n < f → n < g →
    natReprCore f n = natReprCore g n := by
  intro f
  induction f with
  | zero => intro g n hf; omega
  | succ f ih =>
    intro g n hf hg
    match g, hg with
    | g + 1, _ =>
      show natReprCore (f + 1) n = natReprCore (g + 1) n
      unfold natReprCore
      by_cases hn : n = 0
      · simp [hn]
      · simp only [hn, if_false]
        have hd : n / 10 < n := Nat.div_lt_self (Nat.pos_of_ne_zero hn) (by norm_num)
        rw [ih g (n / 10) (by omega) (by omega)]

theorem natReprCore_ne_nil {f n : ℕ} (hf : n < f) (hn : n ≠ 0) :
    natReprCore f n ≠ [] := by
  match f, hf with
  | f + 1, _ =>
    unfold natReprCore
    simp [hn]

theorem natReprCore_inj : ∀ (f m n : ℕ), m < f → n < f → m ≠ 0 → n ≠ 0 →
    natReprCore f m = natReprCore f n → m = n := by
  intro f
  induction f with
  | zero => intro m n hm; omega
  | succ f ih =>
    intro m n hm hn hm0 hn0 heq
    unfold natReprCore at heq
    simp only [hm0, hn0, if_false] at heq
    have heq' := congrArg List.reverse heq
    simp only [List.reverse_append, List.reverse_cons, List.reverse_nil,
      List.nil_append, List.singleton_append, List.cons.injEq] at heq'
    obtain ⟨hdig, htail⟩ := heq'
    have hmod : m % 10 = n % 10 :=
      digitChar_inj (Nat.mod_lt _ (by norm_num)) (Nat.mod_lt _ (by norm_num)) hdig
    have htail' : natReprCore f (m / 10) = natReprCore f (n / 10) := by
      have := congrArg List.reverse htail
      simpa using this
    have hdivm : m / 10 < f := by
      have := Nat.div_lt_self (Nat.pos_of_ne_zero hm0) (show 1 < 10 by norm_num)
      omega
    have hdivn : n / 10 < f := by
      have := Nat.div_lt_self (Nat.pos_of_ne_zero hn0) (show 1 < 10 by norm_num)
      omega
    by_cases hmz : m / 10 = 0
    · by_cases hnz : n / 10 = 0
      · omega
      · rw [hmz, natReprCore_zero] at htail'
        exact absurd htail'.symm (natReprCore_ne_nil hdivn hnz)
    · by_cases hnz : n / 10 = 0
      · rw [hnz, natReprCore_zero] at htail'
        exact absurd htail' (natReprCore_ne_nil hdivm hmz)
      · have := ih (m / 10) (n / 10) hdivm hdivn hmz hnz htail'
        omega

theorem natReprCore_eq_single {f n : ℕ} (hf : n < f) (hn : n ≠ 0) {c : Char}
    (h : natReprCore f n = [c]) : n < 10 ∧ c = digitChar n := by
  match f, hf with
  | f + 1, _ =>
    unfold natReprCore at h
    simp only [hn, if_false] at h
    have hz : n / 10 = 0 := by
      by_contra hnd
      have h2 : natReprCore f (n / 10) ≠ [] := by
        apply natReprCore_ne_nil _ hnd
        have := Nat.div_lt_self (Nat.pos_of_ne_zero hn) (show 1 < 10 by norm_num)
        omega
      match hcc : natReprCore f (n / 10), h2 with
      | d :: ds, _ =>
        rw [hcc] at h
        simp at h
    rw [hz, natReprCore_zero, List.nil_append] at h
    have hlt : n < 10 := by omega
    have hmod : n % 10 = n := Nat.mod_eq_of_lt hlt
    refine ⟨hlt, ?_⟩
    rw [← hmod]
    exact (List.cons.injEq _ _ _ _ ▸ h).1.symm

theorem natRepr_eq_zero_string {n : ℕ} (h : natRepr n = "0") : n = 0 := by
  by_contra hn
  unfold natRepr at h
  simp only [hn, if_false] at h
  have hd : natReprCore (n + 1) n = ['0'] := congrArg String.data h
  obtain ⟨hlt, hc⟩ := natReprCore_eq_single (Nat.lt_succ_self n) hn hd
  have h0 : digitChar 0 = digitChar n := by
    rw [← hc]
    decide
  exact hn ((digitChar_inj (by norm_num) hlt h0).symm)

theorem natRepr_inj {m n : ℕ} (h : natRepr m = natRepr n) : m = n := by
  by_cases hm : m = 0
  · subst hm
    exact (natRepr_eq_zero_string h.symm).symm
  · by_cases hn : n = 0
    · subst hn
      exact absurd h (fun hh => hm (natRepr_eq_zero_string hh))
    · unfold natRepr at h
      simp only [hm, hn, if_false] at h
      have hd : natReprCore (m + 1) m = natReprCore (n + 1) n :=
        congrArg String.data h
      refine natReprCore_inj (max m n + 1) m n (by omega) (by omega) hm hn ?_
      rw [natReprCore_congr (max m n + 1) (m + 1) m (by omega) (by omega),
        natReprCore_congr (max m n + 1) (n + 1) n (by omega) (by omega)]
      exact hd

theorem svgID_inj {p : String} {m n : ℕ}
    (h : p ++ "-" ++ natRepr m = p ++ "-" ++ natRepr n) : m = n := by
  apply natRepr_inj
  have hd := congrArg String.data h
  rw [String.data_append, String.data_append, String.data_append,
    String.data_append, List.append_assoc, List.append_assoc] at hd
  have := List.append_cancel_left (List.append_cancel_left hd)
  exact String.ext this

/-! ## Call sequences against the module-level id counter -/

/-- The ids returned by a sequence of `generateSvgID` calls with the given
prefixes, starting from counter state `st`. -/
def genOutputs : List String → IDState → List String
  | [], _ => []
  | p :: rest, st => (generateSvgID p st).1 :: genOutputs rest (generateSvgID p st).2

theorem genOutputs_length (calls : List String) (st : IDState) :
    (genOutputs calls st).length = calls.length := by
  induction calls generalizing st with
  | nil => rfl
  | cons c rest ih => simp [genOutputs, ih]

theorem genOutputs_getD (calls : List String) : ∀ (st : IDState) (i : ℕ),
    i < calls.length →
    (genOutputs calls st).getD i "" =
      calls.getD i "" ++ "-" ++
        natRepr (st (calls.getD i "") + (calls.take i).count (calls.getD i "") + 1) := by
  induction calls with
  | nil => intro st i h; simp at h
  | cons c rest ih =>
    intro st i h
    cases i with
    | zero =>
      show (generateSvgID c st).1 = c ++ "-" ++ natRepr (st c + (List.take 0 (c :: rest)).count c + 1)
      simp [generateSvgID]
    | succ i =>
      have hi : i < rest.length := by simpa using h
      show (genOutputs rest (generateSvgID c st).2).getD i "" = _
      rw [ih (generateSvgID c st).2 i hi]
      have hd : (c :: rest).getD (i + 1) "" = rest.getD i "" := rfl
      rw [hd]
      by_cases hp : rest.getD i "" = c
      · rw [hp]
        have h1 : (generateSvgID c st).2 c = st c + 1 := by
          show (if c = c then st c + 1 else st c) = st c + 1
          rw [if_pos rfl]
        have h2 : ((c :: rest).take (i + 1)).count c = (rest.take i).count c + 1 := by
          rw [List.take_succ_cons, List.count_cons]
          simp
        rw [h1, h2]
        congr 2
        omega
      · have h1 : (generateSvgID c st).2 (rest.getD i "") = st (rest.getD i "") := by
          show (if rest.getD i "" = c then st c + 1 else st (rest.getD i "")) = _
          rw [if_neg hp]
        have h2 : ((c :: rest).take (i + 1)).count (rest.getD i "") =
            (rest.take i).count (rest.getD i "") := by
          rw [List.take_succ_cons, List.count_cons]
          simp only [beq_iff_eq]
          rw [if_neg (fun hc => hp hc.symm)]
          omega
        rw [h1, h2]

theorem genOutputs_ne_of_lt (calls : List String) {i j : ℕ} (hij : i < j)
    (hj : j < calls.length) (hpfx : calls.getD i "" = calls.getD j "") :
    (genOutputs calls initialSvgIDs).getD i "" ≠
      (genOutputs calls initialSvgIDs).getD j "" := by
  have hi : i < calls.length := lt_trans hij hj
  rw [genOutputs_getD calls initialSvgIDs i hi, genOutputs_getD calls initialSvgIDs j hj,
    ← hpfx]
  intro heq
  have hcount := svgID_inj heq
  -- the number of earlier calls with this prefix strictly grows from i to j
  have hgetI : calls[i] = calls.getD i "" := by
    rw [List.getD_eq_getElem?_getD, List.getElem?_eq_getElem hi]
    rfl
  have h1 : (calls.take (i + 1)).count (calls.getD i "") =
      (calls.take i).count (calls.getD i "") + 1 := by
    rw [List.take_succ, List.getElem?_eq_getElem hi]
    simp [List.count_append, hgetI]
  have h2 : (calls.take (i + 1)).count (calls.getD i "") ≤
      (calls.take j).count (calls.getD i "") := by
    have hsub : (calls.take (i + 1)).Sublist (calls.take j) := by
      have := List.take_sublist (i + 1) (calls.take j)
      rwa [List.take_take, min_eq_left (by omega : i + 1 ≤ j)] at this
    exact hsub.count_le _
  omega

/-- C4: any two distinct calls of `generateSvgID` with the same prefix
return distinct id strings, and the n-th call with a prefix (counting,
from module load, only the calls with that prefix) returns the prefix
followed by a dash and n. -/
theorem generateSvgID_distinct_calls (calls : List String) (i j : ℕ)
    (hi : i < calls.length) (hj : j < calls.length) (hne : i ≠ j)
    (hpfx : calls.getD i "" = calls.getD j "") :
    (genOutputs calls initialSvgIDs).getD i "" ≠
      (genOutputs calls initialSvgIDs).getD j "" ∧
    (genOutputs calls initialSvgIDs).getD i "" =
      calls.getD i "" ++ "-" ++
        natRepr ((calls.take i).count (calls.getD i "") + 1) := by
  constructor
  · rcases Nat.lt_or_ge i j with hlt | hge
    · exact genOutputs_ne_of_lt calls hlt hj hpfx
    · have hlt : j < i := by omega
      exact (genOutputs_ne_of_lt calls hlt hi hpfx.symm).symm
  · rw [genOutputs_getD calls initialSvgIDs i hi]
    have : initialSvgIDs (calls.getD i "") = 0 := rfl
    rw [this, Nat.zero_add]

/-- Witness for C4: in the call sequence a, b, a the first and third call
share the prefix a and return distinct ids, the first being a-1. -/
theorem generateSvgID_distinct_calls_witness :
    (genOutputs ["a", "b", "a"] initialSvgIDs).getD 0 "" ≠
      (genOutputs ["a", "b", "a"] initialSvgIDs).getD 2 "" ∧
    (genOutputs ["a", "b", "a"] initialSvgIDs).getD 0 "" = "a-1" := by
  have h := generateSvgID_distinct_calls ["a", "b", "a"] 0 2 (by decide) (by decide)
    (by decide) rfl
  exact ⟨h.1, h.2.trans (by decide)⟩

/-- C5 counterexample: `generateSvgID` does not depend only on its
explicit arguments — two calls with the equal prefix argument a return
the unequal ids a-1 and a-2, because of the persistent `svgIDs`
counter. -/
theorem generateSvgID_persistent_counter :
    (generateSvgID "a" initialSvgIDs).1 = "a-1" ∧
    (generateSvgID "a" (generateSvgID "a" initialSvgIDs).2).1 = "a-2" ∧
    (generateSvgID "a" initialSvgIDs).1 ≠
      (generateSvgID "a" (generateSvgID "a" initialSvgIDs).2).1 :=
  ⟨by decide, by decide, by decide⟩

/-- C5 (amended): the only persistent state is the per-prefix `svgIDs`
counter consumed by `generateSvgID`: a call returns the prefix, a dash
and the bumped counter value, bumps exactly that counter, and a
subsequent call with the same prefix therefore returns a different
id. -/
theorem generateSvgID_counter_semantics (p : String) (st : IDState) :
    (generateSvgID p st).1 = p ++ "-" ++ natRepr (st p + 1) ∧
    (generateSvgID p st).2 p = st p + 1 ∧
    (∀ q, q ≠ p → (generateSvgID p st).2 q = st q) ∧
    (generateSvgID p st).1 ≠ (generateSvgID p (generateSvgID p st).2).1 := by
  have h2 : (generateSvgID p st).2 p = st p + 1 := by simp [generateSvgID]
  refine ⟨rfl, h2, fun q hq => by simp [generateSvgID, hq], ?_⟩
  intro h
  have hsnd : (generateSvgID p (generateSvgID p st).2).1 =
      p ++ "-" ++ natRepr (st p + 1 + 1) := by
    show p ++ "-" ++ natRepr ((generateSvgID p st).2 p + 1) = _
    rw [h2]
  rw [hsnd] at h
  have := svgID_inj h
  omega

/-- C10: `ensureCheckerPattern` is idempotent — on an SVG with no checker
pattern it creates exactly one pattern whose id comes from
`generateSvgID`, and returns that id; on an SVG that already has the
pattern it creates nothing, changes nothing, and returns the existing
id (so every later call returns the id of the first call). -/
theorem ensureCheckerPattern_idempotent (st : IDState) :
    (ensureCheckerPattern [] st).2.1 = [(ensureCheckerPattern [] st).1] ∧
    (ensureCheckerPattern [] st).1 = (generateSvgID "checkerPattern" st).1 ∧
    (ensureCheckerPattern (ensureCheckerPattern [] st).2.1
        (ensureCheckerPattern [] st).2.2).1 = (ensureCheckerPattern [] st).1 ∧
    (∀ (p : String) (rest : List String) (st2 : IDState),
      ensureCheckerPattern (p :: rest) st2 = (p, [p], st2)) :=
  ⟨rfl, rfl, rfl, fun _ _ _ => rfl⟩

theorem checkTypeS_snd (sc : Scale) : (checkTypeS sc).2 = sc := by
  unfold checkTypeS
  rcases hr : sc.range with _ | r
  · rfl
  · dsimp only
    split_ifs <;> rfl

/-- C6: `checkType` probes only the copy of its argument — the domain and
range of the scale object that was passed in are the same when the call
returns. -/
theorem checkType_preserves_scale (sc : Scale) :
    (checkTypeS sc).2.domain = sc.domain ∧ (checkTypeS sc).2.range = sc.range := by
  rw [checkTypeS_snd]
  exact ⟨rfl, rfl⟩

/-! ## The scale-type inference (C2, C3) -/

theorem checkType_none {sc : Scale} (hr : sc.range = none) :
    checkType sc = "sequential" := by
  unfold checkType checkTypeS
  rw [hr]

theorem checkType_some {sc : Scale} {r : List ℚ} (hr : sc.range = some r) :
    checkType sc =
      if sc.applyFn [1, 2] [1, 2] (3 / 2) = .num 1 then "ordinal"
      else if sc.invertFn [1, 2] [1, 2] (3 / 2) = .num (3 / 2) then "linear"
      else if (sc.invertFn [1, 2] [1, 2] (3 / 2)).isDate then "time"
      else "not supported" := by
  unfold checkType checkTypeS
  rw [hr]
  dsimp only [probedCopy]
  simp only [Option.getD_some]
  split_ifs <;> rfl

/-- A d3 sequential-style scale object: no range method. -/
def seqScale : Scale :=
  { domain := [0, 1]
    range := none
    hasInvert := false
    applyFn := fun _ _ _ => .other
    invertFn := fun _ _ _ => .other }

/-- An ordinal-style scale object: its probe application returns the
first range value 1. -/
def ordScale : Scale :=
  { domain := [1, 2, 3]
    range := some [1, 2]
    hasInvert := false
    applyFn := fun _ _ _ => .num 1
    invertFn := fun _ _ _ => .other }

/-- A linear scale object over domain [0, 1]. -/
def linScale : Scale :=
  { domain := [0, 1]
    range := some [1, 2]
    hasInvert := true
    applyFn := linApplyV
    invertFn := linInvertV }

/-- A time-style scale object: probing invert yields a Date. -/
def timeScale : Scale :=
  { domain := [0, 1]
    range := some [1, 2]
    hasInvert := true
    applyFn := fun _ _ _ => .num 2
    invertFn := fun _ _ _ => .date 0 }

/-- C2 counterexample: `checkType` does not classify every scale as one
of ordinal, linear or time — a scale without a range method is
classified sequential. -/
theorem checkType_not_three_way :
    checkType seqScale = "sequential" ∧
    checkType seqScale ≠ "ordinal" ∧ checkType seqScale ≠ "linear" ∧
    checkType seqScale ≠ "time" :=
  ⟨rfl, by decide, by decide, by decide⟩

/-- C2 (amended): `checkType` classifies every scale as one of
sequential, ordinal, linear, time or not supported: a scale without a
range method is sequential; otherwise, probing a copy with domain [1,2]
and range [1,2], in order: a scale whose probe returns 1 at input 1.5 is
ordinal, else one whose invert(1.5) equals 1.5 is linear, else one whose
invert(1.5) is a Date is time, else not supported. -/
theorem checkType_five_way_classification (sc : Scale) :
    (checkType sc = "sequential" ∨ checkType sc = "ordinal" ∨
      checkType sc = "linear" ∨ checkType sc = "time" ∨
      checkType sc = "not supported") ∧
    (sc.range = none → checkType sc = "sequential") ∧
    (sc.range ≠ none → sc.applyFn [1, 2] [1, 2] (3 / 2) = .num 1 →
      checkType sc = "ordinal") ∧
    (sc.range ≠ none → sc.applyFn [1, 2] [1, 2] (3 / 2) ≠ .num 1 →
      sc.invertFn [1, 2] [1, 2] (3 / 2) = .num (3 / 2) →
      checkType sc = "linear") ∧
    (sc.range ≠ none → sc.applyFn [1, 2] [1, 2] (3 / 2) ≠ .num 1 →
      sc.invertFn [1, 2] [1, 2] (3 / 2) ≠ .num (3 / 2) →
      (sc.invertFn [1, 2] [1, 2] (3 / 2)).isDate = true →
      checkType sc = "time") := by
  rcases hr : sc.range with _ | r
  · have hc := checkType_none hr
    refine ⟨Or.inl hc, fun _ => hc, ?_, ?_, ?_⟩
    · intro hne _
      exact absurd rfl hne
    · intro hne _ _
      exact absurd rfl hne
    · intro hne _ _ _
      exact absurd rfl hne
  · have he := checkType_some hr
    refine ⟨?_, ?_, ?_, ?_, ?_⟩
    · rw [he]
      split_ifs <;> simp
    · intro h
      exact Option.noConfusion h
    · intro _ hprobe
      rw [he, if_pos hprobe]
    · intro _ hnp hinv
      rw [he, if_neg hnp, if_pos hinv]
    · intro _ hnp hni hdate
      rw [he, if_neg hnp, if_neg hni, if_pos hdate]

theorem linearApply_probe : linearApply [1, 2] [1, 2] (3 / 2) = 3 / 2 := by
  norm_num [linearApply, bimap, segApply, normalizeQ, interpN]

/-- Witness for C2: the three probe rules fire on concrete ordinal,
linear and time scale objects. -/
theorem checkType_five_way_witness :
    checkType ordScale = "ordinal" ∧ checkType linScale = "linear" ∧
    checkType timeScale = "time" := by
  have hla : linScale.applyFn [1, 2] [1, 2] (3 / 2) = .num (3 / 2) := by
    show Val.num (linearApply [1, 2] [1, 2] (3 / 2)) = _
    rw [linearApply_probe]
  have hli : linScale.invertFn [1, 2] [1, 2] (3 / 2) = .num (3 / 2) := by
    show Val.num (linearApply [1, 2] [1, 2] (3 / 2)) = _
    rw [linearApply_probe]
  refine ⟨?_, ?_, ?_⟩
  · exact (checkType_five_way_classification ordScale).2.2.1 (by simp [ordScale]) rfl
  · refine (checkType_five_way_classification linScale).2.2.2.1 (by simp [linScale]) ?_ hli
    rw [hla]
    intro hcon
    exact absurd (Val.num.inj hcon) (by norm_num)
  · exact (checkType_five_way_classification timeScale).2.2.2.2 (by simp [timeScale])
      (by intro hcon; exact absurd (Val.num.inj hcon) (by norm_num))
      (by simp [timeScale]) rfl

/-- C3: for every color scale classified as ordinal and every pixel
extent, `makeAxisScale` returns the band scale whose domain is the color
scale domain and whose range is exactly the extent. -/
theorem makeAxisScale_ordinal_band (sc : Scale) (extent : List ℚ)
    (hord : scaleIsOrdinal sc = true) :
    makeAxisScale sc extent = .band sc.domain extent := by
  unfold makeAxisScale
  simp [hord]

/-- Witness for C3: a concrete ordinal scale with domain [1, 2, 3] and
extent [0, 100]. -/
theorem makeAxisScale_ordinal_band_witness :
    makeAxisScale ordScale [0, 100] = .band [1, 2, 3] [0, 100] :=
  makeAxisScale_ordinal_band ordScale [0, 100] (by decide)

/-- C8: rendering a `colorHandle` of width w and height h emits a pointer
triangle with points (0, 0), (w/2, w/2), (−w/2, w/2) — apex at the
origin — and a swatch polygon of width w and height h translated by
(−w/2, w/2) whose fill is the color accessor applied to the bound
datum. -/
theorem colorHandle_render_geometry {D : Type} (w hh bt : ℚ)
    (color : D → String) (d : D) :
    (colorHandleRender ⟨w, hh, bt, color⟩ d).trianglePoints =
      [(0, 0), (w / 2, w / 2), (-(w / 2), w / 2)] ∧
    (colorHandleRender ⟨w, hh, bt, color⟩ d).boxPoints =
      [(0, 0), (w, 0), (w, hh), (0, hh)] ∧
    (colorHandleRender ⟨w, hh, bt, color⟩ d).boxTransform = (-(w / 2), w / 2) ∧
    (colorHandleRender ⟨w, hh, bt, color⟩ d).boxFill = color d :=
  ⟨rfl, rfl, rfl, rfl⟩

/-- C9: each of the color, width, height and borderThickness accessors of
a `colorHandle` stores exactly the value that was set and leaves the
other three properties unchanged (the setter returns the handle itself,
modelled as the updated accessor state). -/
theorem colorHandle_accessors {D : Type} (h : ColorHandle D)
    (c : D → String) (w hh bt : ℚ) :
    ((h.setColor c).color = c ∧ (h.setColor c).width = h.width ∧
      (h.setColor c).height = h.height ∧
      (h.setColor c).borderThickness = h.borderThickness) ∧
    ((h.setWidth w).width = w ∧ (h.setWidth w).color = h.color ∧
      (h.setWidth w).height = h.height ∧
      (h.setWidth w).borderThickness = h.borderThickness) ∧
    ((h.setHeight hh).height = hh ∧ (h.setHeight hh).color = h.color ∧
      (h.setHeight hh).width = h.width ∧
      (h.setHeight hh).borderThickness = h.borderThickness) ∧
    ((h.setBorderThickness bt).borderThickness = bt ∧
      (h.setBorderThickness bt).color = h.color ∧
      (h.setBorderThickness bt).width = h.width ∧
      (h.setBorderThickness bt).height = h.height) :=
  ⟨⟨rfl, rfl, rfl, rfl⟩, ⟨rfl, rfl, rfl, rfl⟩, ⟨rfl, rfl, rfl, rfl⟩,
    ⟨rfl, rfl, rfl, rfl⟩⟩

/-! ## Piecewise-linear evaluation at the knots (toolkit for C1) -/

theorem getD_eq_get {l : List ℚ} {i : ℕ} (h : i < l.length) :
    l.getD i 0 = l.get ⟨i, h⟩ := by
  rw [List.getD_eq_getElem?_getD, List.getElem?_eq_getElem h]
  rfl

theorem take_one_eq {l : List ℚ} (h : 0 < l.length) :
    l.take 1 = [l.get ⟨0, h⟩] := by
  cases l with
  | nil => simp at h
  | cons a t => rfl

theorem drop_last_eq {l : List ℚ} {n : ℕ} (h : l.length = n + 1) :
    l.drop n = [l.get ⟨n, by omega⟩] := by
  rw [List.drop_eq_get_cons (by omega), List.drop_eq_nil_of_le (by omega)]

theorem sorted_get_le {l : List ℚ} (hp : l.Pairwise (· < ·)) {i j : ℕ}
    (hi : i < l.length) (hj : j < l.length) :
    l.get ⟨i, hi⟩ ≤ l.get ⟨j, hj⟩ ↔ i ≤ j := by
  constructor
  · intro h
    by_contra hc
    push_neg at hc
    have hlt := List.pairwise_iff_get.mp hp ⟨j, hj⟩ ⟨i, hi⟩ hc
    exact absurd (lt_of_le_of_lt h hlt) (lt_irrefl _)
  · intro h
    rcases Nat.eq_or_lt_of_le h with rfl | hlt
    · exact le_refl _
    · exact le_of_lt (List.pairwise_iff_get.mp hp ⟨i, hi⟩ ⟨j, hj⟩ hlt)

theorem sortedCountP : ∀ (l : List ℚ), l.Pairwise (· < ·) →
    ∀ (k : ℕ) (hk : k < l.length),
    l.countP (fun v => decide (v ≤ l.get ⟨k, hk⟩)) = k + 1 := by
  intro l
  induction l with
  | nil => intro _ k hk; simp at hk
  | cons a t ih =>
    intro hp k hk
    rcases List.pairwise_cons.mp hp with ⟨ha, ht⟩
    cases k with
    | zero =>
      show List.countP (fun v => decide (v ≤ a)) (a :: t) = 1
      rw [List.countP_cons]
      have hz : List.countP (fun v => decide (v ≤ a)) t = 0 := by
        rw [List.countP_eq_zero]
        intro b hb
        simp only [decide_eq_true_eq]
        exact not_le.mpr (ha b hb)
      simp [hz]
    | succ k =>
      have hkt : k < t.length := by simpa using hk
      show List.countP (fun v => decide (v ≤ t.get ⟨k, hkt⟩)) (a :: t) = k + 2
      rw [List.countP_cons]
      have hat : a ≤ t.get ⟨k, hkt⟩ := le_of_lt (ha _ (List.get_mem t k hkt))
      rw [ih ht k hkt]
      have hat2 : a ≤ t[k] := hat
      simp [hat2]

theorem interpN_zero (u v : ℚ) : interpN u v 0 = u := by norm_num [interpN]

theorem interpN_one (u v : ℚ) : interpN u v 1 = v := by norm_num [interpN]

theorem normalizeQ_left {a b : ℚ} (h : b - a ≠ 0) : normalizeQ a b a = 0 := by
  simp [normalizeQ, h]

theorem normalizeQ_right {a b : ℚ} (h : b - a ≠ 0) : normalizeQ a b b = 1 := by
  simp only [normalizeQ, h, if_false]
  exact div_self h

theorem polymapAsc_knot (d r : List ℚ) (m : ℕ)
    (hd : d.length = m + 3) (hr : r.length = m + 3)
    (hp : d.Pairwise (· < ·)) (k : ℕ) (hk : k < m + 3) :
    polymapAsc d r (d.getD k 0) = r.getD k 0 := by
  have hkd : k < d.length := by omega
  have hkr : k < r.length := by omega
  rw [getD_eq_get hkd]
  show segApply
      (d.getD (bisectR d (d.get ⟨k, hkd⟩) 1 (min d.length r.length - 1) - 1) 0)
      (d.getD (bisectR d (d.get ⟨k, hkd⟩) 1 (min d.length r.length - 1) - 1 + 1) 0)
      (r.getD (bisectR d (d.get ⟨k, hkd⟩) 1 (min d.length r.length - 1) - 1) 0)
      (r.getD (bisectR d (d.get ⟨k, hkd⟩) 1 (min d.length r.length - 1) - 1 + 1) 0)
      (d.get ⟨k, hkd⟩) = r.getD k 0
  have hmin : min d.length r.length - 1 = m + 2 := by
    rw [hd, hr]
    simp
  rw [hmin]
  -- compute the bisection index
  have htotal : d.countP (fun v => decide (v ≤ d.get ⟨k, hkd⟩)) = k + 1 :=
    sortedCountP d hp k hkd
  have hsplit1 : (d.take 1).countP (fun v => decide (v ≤ d.get ⟨k, hkd⟩)) +
      (d.drop 1).countP (fun v => decide (v ≤ d.get ⟨k, hkd⟩)) =
      d.countP (fun v => decide (v ≤ d.get ⟨k, hkd⟩)) := by
    rw [← List.countP_append, List.take_append_drop]
  have hdd : (d.drop 1).drop (m + 1) = d.drop (m + 2) := by
    rw [List.drop_drop]
    congr 1
    omega
  have hsplit2 : ((d.drop 1).take (m + 1)).countP (fun v => decide (v ≤ d.get ⟨k, hkd⟩)) +
      (d.drop (m + 2)).countP (fun v => decide (v ≤ d.get ⟨k, hkd⟩)) =
      (d.drop 1).countP (fun v => decide (v ≤ d.get ⟨k, hkd⟩)) := by
    rw [← hdd, ← List.countP_append, List.take_append_drop]
  have h1 : (d.take 1).countP (fun v => decide (v ≤ d.get ⟨k, hkd⟩)) = 1 := by
    rw [take_one_eq (show 0 < d.length by omega)]
    have h0k : d[0] ≤ d[k] :=
      (sorted_get_le hp (by omega) hkd).mpr (Nat.zero_le k)
    simp [List.countP_cons, h0k]
  have hlast : (d.drop (m + 2)).countP (fun v => decide (v ≤ d.get ⟨k, hkd⟩)) =
      if k = m + 2 then 1 else 0 := by
    rw [drop_last_eq (show d.length = (m + 2) + 1 by omega)]
    by_cases hkl : k = m + 2
    · subst hkl
      have hle : d[m + 2] ≤ d[m + 2] := le_refl _
      simp [List.countP_cons, hle]
    · have hn2 : d[k] < d[m + 2] :=
        List.pairwise_iff_get.mp hp ⟨k, hkd⟩ ⟨m + 2, by omega⟩
          (Fin.mk_lt_mk.mpr (by omega))
      have hn3 : ¬ d[m + 2] ≤ d[k] := not_le.mpr hn2
      simp [List.countP_cons, hn3, hkl]
  have hS : ((d.drop 1).take (m + 1)).countP (fun v => decide (v ≤ d.get ⟨k, hkd⟩)) =
      min k (m + 1) := by
    by_cases hkl : k = m + 2
    · rw [if_pos hkl] at hlast
      omega
    · rw [if_neg hkl] at hlast
      omega
  have hbis : bisectR d (d.get ⟨k, hkd⟩) 1 (m + 2) = 1 + min k (m + 1) := by
    show 1 + ((d.drop 1).take (m + 2 - 1)).countP (fun v => decide (v ≤ d.get ⟨k, hkd⟩)) = _
    have h21 : m + 2 - 1 = m + 1 := by omega
    rw [h21, hS]
  rw [hbis]
  have hi1 : 1 + min k (m + 1) - 1 = min k (m + 1) := by omega
  rw [hi1]
  by_cases hkl : k ≤ m + 1
  · have hmn : min k (m + 1) = k := min_eq_left hkl
    rw [hmn]
    have hk1d : k + 1 < d.length := by omega
    have hblt : d.get ⟨k, hkd⟩ < d.get ⟨k + 1, hk1d⟩ :=
      List.pairwise_iff_get.mp hp ⟨k, hkd⟩ ⟨k + 1, hk1d⟩ (Fin.mk_lt_mk.mpr (by omega))
    rw [getD_eq_get hkd, getD_eq_get hk1d]
    unfold segApply
    rw [normalizeQ_left (sub_ne_zero.mpr (ne_of_gt hblt)), interpN_zero,
      getD_eq_get hkr]
  · have hk2 : k = m + 2 := by omega
    subst hk2
    have hmn : min (m + 2) (m + 1) = m + 1 := by omega
    rw [hmn]
    have hm1d : m + 1 < d.length := by omega
    have hblt : d.get ⟨m + 1, hm1d⟩ < d.get ⟨m + 2, hkd⟩ :=
      List.pairwise_iff_get.mp hp ⟨m + 1, hm1d⟩ ⟨m + 2, hkd⟩ (Fin.mk_lt_mk.mpr (by omega))
    rw [getD_eq_get hm1d, getD_eq_get hkd]
    unfold segApply
    rw [normalizeQ_right (sub_ne_zero.mpr (ne_of_gt hblt)), interpN_one,
      getD_eq_get hkr]

theorem getD_reverse {l : List ℚ} {i : ℕ} (h : i < l.length) :
    l.reverse.getD (l.length - 1 - i) 0 = l.getD i 0 := by
  have h1 : l.length - 1 - i < l.reverse.length := by
    rw [List.length_reverse]
    omega
  rw [List.getD_eq_getElem?_getD, List.getElem?_eq_getElem h1,
    List.getD_eq_getElem?_getD, List.getElem?_eq_getElem h]
  simp only [Option.getD_some]
  have hidx : l.length - 1 - (l.length - 1 - i) = i := by omega
  simp [List.getElem_reverse, hidx]

theorem polymap_knot (d r : List ℚ) (m : ℕ)
    (hd : d.length = m + 3) (hr : r.length = m + 3)
    (hp : d.Pairwise (· < ·) ∨ d.Pairwise (fun a b => b < a)) (k : ℕ)
    (hk : k < m + 3) :
    polymap d r (d.getD k 0) = r.getD k 0 := by
  have hkd : k < d.length := by omega
  have hkr : k < r.length := by omega
  show (if d.getD (min d.length r.length - 1) 0 < d.getD 0 0 then
      polymapAsc d.reverse r.reverse (d.getD k 0)
    else polymapAsc d r (d.getD k 0)) = r.getD k 0
  have hmin : min d.length r.length - 1 = m + 2 := by
    rw [hd, hr]
    simp
  rw [hmin]
  rcases hp with hasc | hdesc
  · have hcond : ¬ d.getD (m + 2) 0 < d.getD 0 0 := by
      rw [getD_eq_get (show m + 2 < d.length by omega),
        getD_eq_get (show 0 < d.length by omega)]
      exact not_lt.mpr ((sorted_get_le hasc _ _).mpr (by omega))
    rw [if_neg hcond]
    exact polymapAsc_knot d r m hd hr hasc k hk
  · have hcond : d.getD (m + 2) 0 < d.getD 0 0 := by
      rw [getD_eq_get (show m + 2 < d.length by omega),
        getD_eq_get (show 0 < d.length by omega)]
      exact List.pairwise_iff_get.mp hdesc ⟨0, by omega⟩ ⟨m + 2, by omega⟩
        (Fin.mk_lt_mk.mpr (by omega))
    rw [if_pos hcond]
    have hrev : d.reverse.Pairwise (· < ·) := List.pairwise_reverse.mpr hdesc
    have hx : d.getD k 0 = d.reverse.getD (m + 2 - k) 0 := by
      have hg := getD_reverse (l := d) (i := k) hkd
      rw [hd] at hg
      have hidx : m + 3 - 1 - k = m + 2 - k := by omega
      rw [hidx] at hg
      exact hg.symm
    have hxr : r.getD k 0 = r.reverse.getD (m + 2 - k) 0 := by
      have hg := getD_reverse (l := r) (i := k) hkr
      rw [hr] at hg
      have hidx : m + 3 - 1 - k = m + 2 - k := by omega
      rw [hidx] at hg
      exact hg.symm
    rw [hx, hxr]
    exact polymapAsc_knot d.reverse r.reverse m (by simp [hd]) (by simp [hr]) hrev
      (m + 2 - k) (by omega)

theorem bimap_knot (d r : List ℚ) (hd : d.length = 2) (hr : r.length = 2)
    (hp : d.Pairwise (· < ·) ∨ d.Pairwise (fun a b => b < a)) (k : ℕ)
    (hk : k < 2) :
    bimap d r (d.getD k 0) = r.getD k 0 := by
  obtain ⟨a, b, rfl⟩ := List.length_eq_two.mp hd
  obtain ⟨u, v, rfl⟩ := List.length_eq_two.mp hr
  have hab : a < b ∨ b < a := by
    rcases hp with h | h
    · exact Or.inl ((List.pairwise_cons.mp h).1 b (by simp))
    · exact Or.inr ((List.pairwise_cons.mp h).1 b (by simp))
  interval_cases k
  · show (if b < a then segApply b a v u a else segApply a b u v a) = u
    rcases hab with h | h
    · rw [if_neg (not_lt.mpr (le_of_lt h))]
      unfold segApply
      rw [normalizeQ_left (sub_ne_zero.mpr (ne_of_gt h)), interpN_zero]
    · rw [if_pos h]
      unfold segApply
      rw [normalizeQ_right (sub_ne_zero.mpr (ne_of_gt h)), interpN_one]
  · show (if b < a then segApply b a v u b else segApply a b u v b) = v
    rcases hab with h | h
    · rw [if_neg (not_lt.mpr (le_of_lt h))]
      unfold segApply
      rw [normalizeQ_right (sub_ne_zero.mpr (ne_of_gt h)), interpN_one]
    · rw [if_pos h]
      unfold segApply
      rw [normalizeQ_left (sub_ne_zero.mpr (ne_of_gt h)), interpN_zero]

theorem linearApply_knot (d r : List ℚ) (hlen : d.length = r.length)
    (h2 : 2 ≤ d.length)
    (hp : d.Pairwise (· < ·) ∨ d.Pairwise (fun a b => b < a)) (k : ℕ)
    (hk : k < d.length) :
    linearApply d r (d.getD k 0) = r.getD k 0 := by
  unfold linearApply
  rcases Nat.lt_or_ge d.length 3 with h3 | h3
  · have hd2 : d.length = 2 := by omega
    rw [if_neg (by omega)]
    exact bimap_knot d r hd2 (by omega) hp k (by omega)
  · obtain ⟨m, hm⟩ : ∃ m, d.length = m + 3 := ⟨d.length - 3, by omega⟩
    rw [if_pos (by omega)]
    exact polymap_knot d r m hm (by omega) hp k (by omega)

theorem bimap_formula {a b : ℚ} (hab : a ≠ b) (p0 p1 v : ℚ) :
    linearApply [a, b] [p0, p1] v = p0 + (v - a) * (p1 - p0) / (b - a) := by
  unfold linearApply
  rw [if_neg (by simp)]
  show (if b < a then segApply b a p1 p0 v else segApply a b p0 p1 v) = _
  rcases lt_or_gt_of_ne hab with h | h
  · have hba : b - a ≠ 0 := sub_ne_zero.mpr (ne_of_gt h)
    rw [if_neg (not_lt.mpr (le_of_lt h))]
    unfold segApply normalizeQ interpN
    rw [if_neg hba]
    field_simp
    ring
  · have hba : b - a ≠ 0 := sub_ne_zero.mpr (ne_of_lt h)
    have hab2 : a - b ≠ 0 := sub_ne_zero.mpr (ne_of_gt h)
    rw [if_pos h]
    unfold segApply normalizeQ interpN
    rw [if_neg hab2]
    field_simp
    ring

theorem pixels_getD (d : List ℚ) (f : ℚ → ℚ) (k : ℕ) (hk : k < d.length) :
    (d.map f).getD k 0 = f (d.getD k 0) := by
  rw [List.getD_eq_getElem?_getD, List.getElem?_map, List.getElem?_eq_getElem hk,
    List.getD_eq_getElem?_getD, List.getElem?_eq_getElem hk]
  rfl

/-- Evaluating the returned axis scale at every domain knot gives the
linear interpolation of that knot between the domain ends over the
extent; this is the composition of the knot lemma with the two-point
transformer formula. -/
theorem axis_eval (d : List ℚ) (p0 p1 : ℚ)
    (hmono : d.Pairwise (· < ·) ∨ d.Pairwise (fun a b => b < a))
    (hlen : 2 ≤ d.length) (k : ℕ) (hk : k < d.length) :
    linearApply d (d.map (fun v =>
        linearApply [d.getD 0 0, d.getD (d.length - 1) 0] [p0, p1] v))
      (d.getD k 0) =
      p0 + (d.getD k 0 - d.getD 0 0) * (p1 - p0) /
        (d.getD (d.length - 1) 0 - d.getD 0 0) := by
  have h0 : (0 : ℕ) < d.length := by omega
  have hl : d.length - 1 < d.length := by omega
  have hab : d.getD 0 0 ≠ d.getD (d.length - 1) 0 := by
    rw [getD_eq_get h0, getD_eq_get hl]
    rcases hmono with h | h
    · exact ne_of_lt (List.pairwise_iff_get.mp h ⟨0, h0⟩ ⟨d.length - 1, hl⟩
        (Fin.mk_lt_mk.mpr (by omega)))
    · exact ne_of_gt (List.pairwise_iff_get.mp h ⟨0, h0⟩ ⟨d.length - 1, hl⟩
        (Fin.mk_lt_mk.mpr (by omega)))
  rw [linearApply_knot d _ (by simp) hlen hmono k hk, pixels_getD d _ k hk]
  exact bimap_formula hab p0 p1 _

theorem evalNum_mk (dm : List ℚ) (rg : Option (List ℚ)) (hi : Bool)
    (ivf : List ℚ → List ℚ → ℚ → Val) (x : ℚ) :
    evalNum (Scale.mk dm rg hi linApplyV ivf) x = linearApply dm (rg.getD []) x := rfl

theorem axisScale_spec (dm : List ℚ) (hi2 : Bool)
    (ivf2 : List ℚ → List ℚ → ℚ → Val) (p0 p1 : ℚ)
    (hmono : dm.Pairwise (· < ·) ∨ dm.Pairwise (fun a b => b < a))
    (hlen : 2 ≤ dm.length) :
    (∀ k, k < dm.length →
      evalNum (Scale.mk dm (some (dm.map (fun v =>
          linearApply [dm.getD 0 0, dm.getD (dm.length - 1) 0] [p0, p1] v)))
        hi2 linApplyV ivf2) (dm.getD k 0) =
        p0 + (dm.getD k 0 - dm.getD 0 0) * (p1 - p0) /
          (dm.getD (dm.length - 1) 0 - dm.getD 0 0)) ∧
    evalNum (Scale.mk dm (some (dm.map (fun v =>
        linearApply [dm.getD 0 0, dm.getD (dm.length - 1) 0] [p0, p1] v)))
      hi2 linApplyV ivf2) (dm.getD 0 0) = p0 ∧
    evalNum (Scale.mk dm (some (dm.map (fun v =>
        linearApply [dm.getD 0 0, dm.getD (dm.length - 1) 0] [p0, p1] v)))
      hi2 linApplyV ivf2) (dm.getD (dm.length - 1) 0) = p1 := by
  have hall : ∀ k, k < dm.length →
      evalNum (Scale.mk dm (some (dm.map (fun v =>
          linearApply [dm.getD 0 0, dm.getD (dm.length - 1) 0] [p0, p1] v)))
        hi2 linApplyV ivf2) (dm.getD k 0) =
        p0 + (dm.getD k 0 - dm.getD 0 0) * (p1 - p0) /
          (dm.getD (dm.length - 1) 0 - dm.getD 0 0) := by
    intro k hk
    rw [evalNum_mk]
    exact axis_eval dm p0 p1 hmono hlen k hk
  have h0 : (0 : ℕ) < dm.length := by omega
  have hl : dm.length - 1 < dm.length := by omega
  have hab : dm.getD 0 0 ≠ dm.getD (dm.length - 1) 0 := by
    rw [getD_eq_get h0, getD_eq_get hl]
    rcases hmono with h | h
    · exact ne_of_lt (List.pairwise_iff_get.mp h ⟨0, h0⟩ ⟨dm.length - 1, hl⟩
        (Fin.mk_lt_mk.mpr (by omega)))
    · exact ne_of_gt (List.pairwise_iff_get.mp h ⟨0, h0⟩ ⟨dm.length - 1, hl⟩
        (Fin.mk_lt_mk.mpr (by omega)))
  refine ⟨hall, ?_, ?_⟩
  · rw [hall 0 h0, sub_self, zero_mul, zero_div, add_zero]
  · rw [hall (dm.length - 1) hl, getD_eq_get hl, getD_eq_get h0]
    have hba : (dm.get ⟨dm.length - 1, hl⟩ - dm.get ⟨0, h0⟩ : ℚ) ≠ 0 := by
      rw [getD_eq_get hl, getD_eq_get h0] at hab
      exact sub_ne_zero.mpr (Ne.symm hab)
    rw [mul_div_cancel_left₀ _ hba]
    ring

/-- C1: for every non-ordinal color scale that has range, invert and
copy methods behaving as a d3 linear scale (or lacks them, in which case
a linear scale is substituted) and whose domain is strictly monotonous
with at least two entries, `makeAxisScale` over the pixel extent
[p0, p1] returns a continuous scale with the same domain that maps the
first domain value to p0, the last to p1, and every domain value d to
the interpolation of d between the first and last domain values over
[p0, p1]. -/
theorem makeAxisScale_continuous_interpolates (sc : Scale) (p0 p1 : ℚ)
    (hord : scaleIsOrdinal sc = false)
    (hlin : sc.range.isSome = true → sc.hasInvert = true → sc.applyFn = linApplyV)
    (hmono : sc.domain.Pairwise (· < ·) ∨ sc.domain.Pairwise (fun a b => b < a))
    (hlen : 2 ≤ sc.domain.length) :
    ∃ s, makeAxisScale sc [p0, p1] = .cont s ∧
      s.domain = sc.domain ∧
      evalNum s (sc.domain.getD 0 0) = p0 ∧
      evalNum s (sc.domain.getD (sc.domain.length - 1) 0) = p1 ∧
      (∀ k, k < sc.domain.length →
        evalNum s (sc.domain.getD k 0) =
          p0 + (sc.domain.getD k 0 - sc.domain.getD 0 0) * (p1 - p0) /
            (sc.domain.getD (sc.domain.length - 1) 0 - sc.domain.getD 0 0)) := by
  obtain ⟨dm, rg, hinv, af, ivf⟩ := sc
  by_cases hc : (rg.isSome && hinv) = true
  · have hc3 := hc
    rw [Bool.and_eq_true] at hc3
    have happ : af = linApplyV := hlin hc3.1 hc3.2
    subst happ
    have heq : makeAxisScale (Scale.mk dm rg hinv linApplyV ivf) [p0, p1] =
        .cont (Scale.mk dm (some (dm.map (fun v =>
          linearApply [dm.getD 0 0, dm.getD (dm.length - 1) 0] [p0, p1] v)))
          hinv linApplyV ivf) := by
      unfold makeAxisScale
      simp only [hord, Bool.false_eq_true, if_false, hc, if_true, evalNum_mk,
        Option.getD_some]
    obtain ⟨hall, h0, h1⟩ := axisScale_spec dm hinv ivf p0 p1 hmono hlen
    exact ⟨_, heq, rfl, h0, h1, hall⟩
  · have hc2 : (rg.isSome && hinv) = false := by
      revert hc
      cases rg.isSome && hinv <;> simp
    have heq : makeAxisScale (Scale.mk dm rg hinv af ivf) [p0, p1] =
        .cont (Scale.mk dm (some (dm.map (fun v =>
          linearApply [dm.getD 0 0, dm.getD (dm.length - 1) 0] [p0, p1] v)))
          true linApplyV linInvertV) := by
      unfold makeAxisScale
      simp only [hord, Bool.false_eq_true, if_false, hc2, if_true, evalNum_mk,
        Option.getD_some, scaleLinear]
    obtain ⟨hall, h0, h1⟩ := axisScale_spec dm true linInvertV p0 p1 hmono hlen
    exact ⟨_, heq, rfl, h0, h1, hall⟩

/-- A linear color scale with the three-entry domain [0, 5, 10]. -/
def linDomScale : Scale :=
  { domain := [0, 5, 10]
    range := some [3, 4]
    hasInvert := true
    applyFn := linApplyV
    invertFn := linInvertV }

theorem linDomScale_not_ordinal : scaleIsOrdinal linDomScale = false := by
  have hct : checkType linDomScale = "linear" := by
    rw [checkType_some (show linDomScale.range = some [3, 4] from rfl)]
    have hprobe : linDomScale.applyFn [1, 2] [1, 2] (3 / 2) = .num (3 / 2) := by
      show Val.num (linearApply [1, 2] [1, 2] (3 / 2)) = _
      rw [linearApply_probe]
    have hinvp : linDomScale.invertFn [1, 2] [1, 2] (3 / 2) = .num (3 / 2) := by
      show Val.num (linearApply [1, 2] [1, 2] (3 / 2)) = _
      rw [linearApply_probe]
    rw [hprobe, hinvp]
    rw [if_neg (fun hcon => absurd (Val.num.inj hcon) (by norm_num)), if_pos rfl]
  unfold scaleIsOrdinal
  rw [hct]
  rfl

/-- Witness for C1: the linear scale with domain [0, 5, 10] over extent
[0, 100] maps 0 to 0, 10 to 100 and the intermediate value 5 to 50. -/
theorem makeAxisScale_continuous_witness :
    ∃ s, makeAxisScale linDomScale [0, 100] = .cont s ∧
      s.domain = [0, 5, 10] ∧
      evalNum s 0 = 0 ∧ evalNum s 10 = 100 ∧ evalNum s 5 = 50 := by
  obtain ⟨s, heq, hdom, h0, h1, hall⟩ :=
    makeAxisScale_continuous_interpolates linDomScale 0 100
      linDomScale_not_ordinal (fun _ _ => rfl)
      (Or.inl (by norm_num [linDomScale, List.pairwise_cons]))
      (by norm_num [linDomScale])
  refine ⟨s, heq, hdom, h0, h1, ?_⟩
  refine (hall 1 (by norm_num [linDomScale])).trans ?_
  norm_num [linDomScale]

theorem gradientRects_getD (o : Orientation) (L b i : ℕ) (h : i < L + 1) :
    (gradientRects o L b).getD i default =
      match o with
      | .horizontal => ⟨i, 0, min 2 (L + 1 - i), b⟩
      | .vertical => ⟨0, L - i, b, min 2 (i + 1)⟩ := by
  unfold gradientRects
  rw [List.getD_eq_getElem?_getD, List.getElem?_map, List.getElem?_range h]
  cases o <;> rfl

theorem gradientRects_test_vertical :
    gradientRects .vertical 10 30 =
      [⟨0, 10, 30, 1⟩, ⟨0, 9, 30, 2⟩, ⟨0, 8, 30, 2⟩, ⟨0, 7, 30, 2⟩,
       ⟨0, 6, 30, 2⟩, ⟨0, 5, 30, 2⟩, ⟨0, 4, 30, 2⟩, ⟨0, 3, 30, 2⟩,
       ⟨0, 2, 30, 2⟩, ⟨0, 1, 30, 2⟩, ⟨0, 0, 30, 2⟩] := by decide

theorem gradientRects_test_horizontal :
    gradientRects .horizontal 10 8 =
      [⟨0, 0, 2, 8⟩, ⟨1, 0, 2, 8⟩, ⟨2, 0, 2, 8⟩, ⟨3, 0, 2, 8⟩,
       ⟨4, 0, 2, 8⟩, ⟨5, 0, 2, 8⟩, ⟨6, 0, 2, 8⟩, ⟨7, 0, 2, 8⟩,
       ⟨8, 0, 2, 8⟩, ⟨9, 0, 2, 8⟩, ⟨10, 0, 1, 8⟩] := by decide

/-- C7: swatch layout of the continuous colorbar.  In vertical
orientation every gradient rect has x = 0 and width = breadth and the
i-th rect advances along y (y = barLength − i); in horizontal
orientation every rect has y = 0 and height = breadth and the i-th rect
advances along x (x = i).  In both orientations the swatches stay inside
the bar interior (barLength + 1 pixels inside the border) and cover
every pixel of it. -/
theorem gradientRects_layout (L b : ℕ) :
    ((gradientRects .vertical L b).length = L + 1 ∧
      ∀ i, i < L + 1 →
        ((gradientRects .vertical L b).getD i default).x = 0 ∧
        ((gradientRects .vertical L b).getD i default).width = b ∧
        ((gradientRects .vertical L b).getD i default).y = L - i) ∧
    ((gradientRects .horizontal L b).length = L + 1 ∧
      ∀ i, i < L + 1 →
        ((gradientRects .horizontal L b).getD i default).y = 0 ∧
        ((gradientRects .horizontal L b).getD i default).height = b ∧
        ((gradientRects .horizontal L b).getD i default).x = i) ∧
    (∀ i, i < L + 1 →
      ((gradientRects .vertical L b).getD i default).y +
          ((gradientRects .vertical L b).getD i default).height ≤ L + 1 ∧
      ((gradientRects .horizontal L b).getD i default).x +
          ((gradientRects .horizontal L b).getD i default).width ≤ L + 1) ∧
    (∀ p, p < L + 1 →
      (∃ i, i < L + 1 ∧
        ((gradientRects .vertical L b).getD i default).y ≤ p ∧
        p < ((gradientRects .vertical L b).getD i default).y +
          ((gradientRects .vertical L b).getD i default).height) ∧
      (∃ i, i < L + 1 ∧
        ((gradientRects .horizontal L b).getD i default).x ≤ p ∧
        p < ((gradientRects .horizontal L b).getD i default).x +
          ((gradientRects .horizontal L b).getD i default).width)) := by
  refine ⟨⟨by simp [gradientRects], ?_⟩, ⟨by simp [gradientRects], ?_⟩, ?_, ?_⟩
  · intro i hi
    rw [gradientRects_getD .vertical L b i hi]
    exact ⟨rfl, rfl, rfl⟩
  · intro i hi
    rw [gradientRects_getD .horizontal L b i hi]
    exact ⟨rfl, rfl, rfl⟩
  · intro i hi
    rw [gradientRects_getD .vertical L b i hi, gradientRects_getD .horizontal L b i hi]
    constructor
    · show L - i + min 2 (i + 1) ≤ L + 1
      omega
    · show i + min 2 (L + 1 - i) ≤ L + 1
      omega
  · intro p hp
    constructor
    · refine ⟨L - p, by omega, ?_⟩
      rw [gradientRects_getD .vertical L b (L - p) (by omega)]
      show L - (L - p) ≤ p ∧ p < L - (L - p) + min 2 (L - p + 1)
      omega
    · refine ⟨p, hp, ?_⟩
      rw [gradientRects_getD .horizontal L b p hp]
      show p ≤ p ∧ p < p + min 2 (L + 1 - p)
      omega

/-- Witness for C7: concrete layout facts at the test sizes: the first
vertical rect sits at y = 10, the last horizontal rect is one pixel
wide, and pixel 3 is covered horizontally. -/
theorem gradientRects_layout_witness :
    ((gradientRects .vertical 10 30).getD 0 default).y = 10 ∧
    ((gradientRects .horizontal 10 8).getD 10 default).width = 1 ∧
    (∃ i, i < 11 ∧
      ((gradientRects .horizontal 10 8).getD i default).x ≤ 3 ∧
      3 < ((gradientRects .horizontal 10 8).getD i default).x +
        ((gradientRects .horizontal 10 8).getD i default).width) := by
  refine ⟨?_, ?_, ?_⟩
  · exact ((gradientRects_layout 10 30).1.2 0 (by norm_num)).2.2
  · have h := ((gradientRects_layout 10 8).2.2.1 10 (by norm_num)).2
    rw [gradientRects_getD .horizontal 10 8 10 (by norm_num)]
    rfl
  · exact ((gradientRects_layout 10 8).2.2.2 3 (by norm_num)).2

end Ipycolorbar
